import Mathlib

/-!
Verification development for the `get-compatible-pgp-subkeys` C program.

The program extracts the 4-byte big-endian OpenPGP creation timestamp from
key files (raw binary packets or ASCII-armored base64 text) and, in filter
mode, moves every key whose timestamp is at least the primary key's
timestamp into a destination directory.

The embedding below models bytes as natural numbers (meaningful values are
below 256), a C `FILE` opened on a regular file as a byte list together
with a read cursor, and the stdio calls `fseek`, `fread` and `fgets` as
pure cursor-advancing functions.  The glib base64 step decoder is modelled
byte for byte after `g_base64_decode_step`, including its rank table in
which the padding byte 61 has rank 0 and is tracked through the
`last0`/`last1` registers to suppress output bytes.
-/

/-- A byte stream with a read cursor: a C `FILE*` opened on a regular file. -/
structure CFile where
  content : List Nat
  pos : Nat
deriving DecidableEq

/-- Model of `fseek(file, o, SEEK_SET)` on a regular file: reposition the cursor.
On a regular file this call always succeeds. -/
def fseekSet (f : CFile) (o : Nat) : CFile :=
  CFile.mk f.content o

/-- Model of `fread(buf, 1, n, file)`: return the bytes actually read (at most `n`)
and the advanced stream. -/
def freadBytes (f : CFile) (n : Nat) : List Nat × CFile :=
  let bs := (f.content.drop f.pos).take n
  (bs, CFile.mk f.content (f.pos + bs.length))

/-- Index of the first newline byte (10), or the length of the list when absent. -/
def newlineIdx : List Nat → Nat
  | [] => 0
  | c :: cs => if c = 10 then 0 else newlineIdx cs + 1

/-- Model of `fgets(line, 67, file)`: read at most 66 bytes, stopping after the
first newline; return `none` at end of file.  The returned list holds exactly the
bytes placed in the buffer before the terminating NUL that `fgets` appends. -/
def fgetsC (f : CFile) : Option (List Nat × CFile) :=
  if f.content.length ≤ f.pos then none
  else
    let cap := (f.content.drop f.pos).take 66
    let taken := min (newlineIdx cap + 1) cap.length
    some (cap.take taken, CFile.mk f.content (f.pos + taken))

/-- C `strlen` of the line buffer: bytes before the first NUL (`fgets` terminates
the buffer with a NUL right after the bytes it read, so a NUL already present in
the read bytes cuts the string short). -/
def cstrLen (l : List Nat) : Nat :=
  (l.takeWhile (fun x => x != 0)).length

/-- C `strchr` on the line buffer, viewed as a test for a nonzero byte `c`
occurring before the terminating NUL. -/
def cstrContains (l : List Nat) (c : Nat) : Bool :=
  (l.takeWhile (fun x => x != 0)).contains c

/-- The rank table `mime_base64_rank` of glib's base64 decoder: the 64 alphabet
bytes map to their 6-bit value, byte 61 (the pad character) maps to 0, and every
other byte maps to 255 (skipped by the decoder). -/
def base64_rank (c : Nat) : Nat :=
  if c = 43 then 62
  else if c = 47 then 63
  else if 48 ≤ c ∧ c ≤ 57 then 52 + (c - 48)
  else if c = 61 then 0
  else if 65 ≤ c ∧ c ≤ 90 then c - 65
  else if 97 ≤ c ∧ c ≤ 122 then 26 + (c - 97)
  else 255

/-- Running state of `g_base64_decode_step`: the group counter `i`, the 32-bit
accumulator `v` (the C `save` register), the last two accepted bytes, and the
output written so far. -/
structure B64DecState where
  i : Nat
  v : Nat
  last0 : Nat
  last1 : Nat
  out : List Nat
deriving DecidableEq

/-- One input byte of `g_base64_decode_step`: bytes of rank 255 are skipped;
an accepted byte shifts its rank into the 32-bit accumulator, and every fourth
accepted byte emits up to three output bytes, the second and third suppressed
when the corresponding accepted byte was the pad byte 61. -/
def b64_step_char (s : B64DecState) (c : Nat) : B64DecState :=
  let rank := base64_rank c
  if rank = 255 then s
  else
    let v := (s.v * 64 + rank) % 4294967296
    if s.i + 1 = 4 then
      let out1 := s.out ++ [v / 65536 % 256]
      let out2 := if s.last0 = 61 then out1 else out1 ++ [v / 256 % 256]
      let out3 := if c = 61 then out2 else out2 ++ [v % 256]
      B64DecState.mk 0 v c s.last0 out3
    else
      B64DecState.mk (s.i + 1) v c s.last0 s.out

/-- `g_base64_decode_step` called with initial `state = 0`, `save = 0`, as the
program does: the bytes written into the output buffer. -/
def g_base64_decode_step (input : List Nat) : List Nat :=
  (input.foldl b64_step_char (B64DecState.mk 0 0 0 0 [])).out

/-- The line-selection test of the dearmor loop, lines 37-45 of the source: a
line is accepted when it contains neither 45 (`-`) nor 58 (`:`) before its NUL
and its `strlen` is exactly 65 (`sizeof(line) - 2`, i.e. 64 body bytes plus the
newline). -/
def lineQualifies (l : List Nat) : Bool :=
  !(cstrContains l 45 || cstrContains l 58) && (cstrLen l == 65)

/-- The decode performed on the selected line: take the 6 bytes at offset 4,
append two pad bytes 61 (`=`) where the program overwrites buffer positions
4+6 and 4+7, and run the step decoder on the resulting 8-byte string. -/
def decodeTimestampLine (line : List Nat) : List Nat :=
  g_base64_decode_step ((line.drop 4).take 6 ++ [61, 61])

/-- The `fgets` loop of `pgp_key_dearmor_extract_timestamp`, with explicit fuel.
Each iteration consumes at least one byte, so fuel `remaining + 1` is enough to
reach the verdict of the C loop. -/
def dearmorLoopF : Nat → CFile → Option (List Nat) × CFile
  | 0, f => (none, f)
  | fuel + 1, f =>
    match fgetsC f with
    | none => (none, f)
    | some (line, f2) =>
      if cstrContains line 45 || cstrContains line 58 then dearmorLoopF fuel f2
      else if cstrLen line != 65 then dearmorLoopF fuel f2
      else (some (decodeTimestampLine line), f2)

/-- `pgp_key_dearmor_extract_timestamp`, lines 25-70 of the source: scan the
stream line by line and decode the timestamp bytes out of the first qualifying
line; fail when the stream is exhausted first.  Returns the decoded bytes (the
contents of `out_timestamp`) together with the final stream state. -/
def pgp_key_dearmor_extract_timestamp (f : CFile) : Option (List Nat) × CFile :=
  dearmorLoopF (f.content.length + 1 - f.pos) f

/-- The successive `fgets` results of a stream, each paired with the stream
state right after it was read; same fuel discipline as the dearmor loop. -/
def cfileLinesF : Nat → CFile → List (List Nat × CFile)
  | 0, _ => []
  | fuel + 1, f =>
    match fgetsC f with
    | none => []
    | some (line, f2) => (line, f2) :: cfileLinesF fuel f2

/-- All lines of a stream as `fgets` would deliver them. -/
def cfileLines (f : CFile) : List (List Nat × CFile) :=
  cfileLinesF (f.content.length + 1 - f.pos) f

/-- `pgp_key_raw_extract_timestamp`, lines 13-23 of the source: seek to absolute
offset 3 and read 4 bytes; fail when fewer than 4 bytes could be read. -/
def pgp_key_raw_extract_timestamp (f : CFile) : Option (List Nat) × CFile :=
  let f1 := fseekSet f 3
  let (bs, f2) := freadBytes f1 4
  if bs.length < 4 then (none, f2) else (some bs, f2)

/-- `ntohl` of the 4 bytes sitting in `out_timestamp`: the big-endian value of
the byte sequence.  Only applied by the program after a successful extraction,
which always leaves 4 bytes for well-formed input. -/
def be32 (bs : List Nat) : Nat :=
  match bs with
  | [a, b, c, d] => ((a * 256 + b) * 256 + c) * 256 + d
  | _ => 0

/-- The two key encodings distinguished by the program. -/
inductive KeyEncoding where
  | Raw
  | Armored
deriving DecidableEq

/-- The format-detection step of `pgp_key_extract_timestamp`, lines 85-91: read
5 bytes from offset 0 and compare them with the ASCII literal `-----`
(five bytes 45); fail when fewer than 5 bytes are available. -/
def detect_key_encoding (content : List Nat) : Option KeyEncoding :=
  let (hdr, _) := freadBytes (CFile.mk content 0) 5
  if hdr.length < 5 then none
  else if hdr = [45, 45, 45, 45, 45] then some KeyEncoding.Armored
  else some KeyEncoding.Raw

/-- The body of `pgp_key_extract_timestamp` after a successful `fopen`, lines
82-104: read and compare the 5 detection bytes, then dispatch to the raw or the
dearmor extractor on the same stream.  Returns the extracted bytes and the
final stream state. -/
def pgp_key_extract_timestamp_run (f : CFile) : Option (List Nat) × CFile :=
  let (hdr, f1) := freadBytes f 5
  if hdr.length < 5 then (none, f1)
  else if hdr ≠ [45, 45, 45, 45, 45] then pgp_key_raw_extract_timestamp f1
  else pgp_key_dearmor_extract_timestamp f1

/-- `pgp_key_extract_timestamp`, lines 72-111: open the file (the `openOk` flag
models `fopen` success), run the dispatch, and convert the extracted bytes from
network byte order with `ntohl`. -/
def pgp_key_extract_timestamp (openOk : Bool) (content : List Nat) : Option Nat :=
  if openOk then
    match (pgp_key_extract_timestamp_run (CFile.mk content 0)).1 with
    | some bs => some (be32 bs)
    | none => none
  else none

/-- Where a candidate file currently lives: still in the source directory or
moved into the destination directory. -/
inductive Loc where
  | src
  | dst
deriving DecidableEq

/-- A directory entry as the scan loop of `main` observes it: its name, what
`stat` reports (success, directory bit), its byte content (a regular file's
`st_size` is the length of that content), whether `fopen` would succeed on it,
whether `rename` into the destination would succeed, and its current location. -/
structure FsEntry where
  name : List Nat
  isDir : Bool
  statOk : Bool
  openOk : Bool
  content : List Nat
  moveOk : Bool
  loc : Loc
deriving DecidableEq

/-- The entry with its location set to the destination directory; `rename`
preserves the base name and the bytes. -/
def setLocDst (e : FsEntry) : FsEntry :=
  FsEntry.mk e.name e.isDir e.statOk e.openOk e.content e.moveOk Loc.dst

/-- The skip tests of the scan loop, lines 175-191 of the source: `stat`
failure, directory entries, zero-length files, and names starting with 46
(`.`) are skipped before any extraction is attempted. -/
def entrySkipped (e : FsEntry) : Bool :=
  !e.statOk || e.isDir || e.content.length == 0 || e.name.head? == some 46

/-- Per-entry verdict of one pass through the scan loop. -/
inductive ScanOutcome where
  | skipped
  | classifyFailed
  | reported (ts : Nat)
  | notCompatible (ts : Nat)
  | moved (ts : Nat)
  | moveFailed (ts : Nat)
deriving DecidableEq

/-- One iteration of the scan loop of `main`, lines 172-207: skip ineligible
entries, extract the timestamp (a failure only skips this entry), report it,
and in filter mode (`thr = some t`) move the file when its timestamp is at
least `t`; a failed `rename` leaves the entry in place. -/
def processEntry (thr : Option Nat) (e : FsEntry) : ScanOutcome × FsEntry :=
  if entrySkipped e then (ScanOutcome.skipped, e)
  else
    match pgp_key_extract_timestamp e.openOk e.content with
    | none => (ScanOutcome.classifyFailed, e)
    | some ts =>
      match thr with
      | none => (ScanOutcome.reported ts, e)
      | some t =>
        if t ≤ ts then
          if e.moveOk then (ScanOutcome.moved ts, setLocDst e)
          else (ScanOutcome.moveFailed ts, e)
        else (ScanOutcome.notCompatible ts, e)

/-- The whole `readdir` loop: every entry is processed in order and no per-file
failure stops the loop. -/
def scanDir (thr : Option Nat) (entries : List FsEntry) : List (ScanOutcome × FsEntry) :=
  entries.map (processEntry thr)

/-- The exit-code and scan behaviour of `main`, lines 129-214: usage check,
then in filter mode (argc = 4) the primary-key extraction and the destination
path allocation, then `opendir` and the file path allocation, then the scan;
each early failure exits with code 1, a completed scan exits with code 0. -/
def mainRun (argc : Nat) (primaryOpenOk : Bool) (primary : List Nat)
    (destMallocOk openDirOk pathMallocOk : Bool) (entries : List FsEntry) :
    Nat × List (ScanOutcome × FsEntry) :=
  if argc ≠ 2 ∧ argc ≠ 4 then (1, [])
  else if argc = 4 ∧ pgp_key_extract_timestamp primaryOpenOk primary = none then (1, [])
  else if argc = 4 ∧ destMallocOk = false then (1, [])
  else if openDirOk = false then (1, [])
  else if pathMallocOk = false then (1, [])
  else
    (0, scanDir (if argc = 4 then pgp_key_extract_timestamp primaryOpenOk primary else none)
      entries)

/-- The base64 alphabet: the byte encoding a 6-bit value, inverse of
`base64_rank` on ranks below 64.  Used to build the armored inputs of the
refinement claim. -/
def b64c (r : Nat) : Nat :=
  if r < 26 then 65 + r
  else if r < 52 then 97 + (r - 26)
  else if r < 62 then 48 + (r - 52)
  else if r = 62 then 43
  else 47

/-- Standard base64 encoding of one 3-byte group into 4 alphabet bytes. -/
def encode3 (a b c : Nat) : List Nat :=
  [b64c (a / 4), b64c (a % 4 * 16 + b / 16), b64c (b % 16 * 4 + c / 64), b64c (c % 64)]

/-- Standard base64 encoding of the complete 3-byte groups of a byte list, as
an armor producer emits the body of an armored key (a trailing partial group
belongs to a later body line and is not needed here). -/
def encodeBody : List Nat → List Nat
  | a :: b :: c :: rest => encode3 a b c ++ encodeBody rest
  | _ => []

lemma takeWhile_ne_zero_eq_self (l : List Nat) (h : ∀ x ∈ l, x ≠ 0) :
    l.takeWhile (fun x => x != 0) = l := by
  rw [List.takeWhile_eq_self_iff]
  intro x hx
  simpa using h x hx

lemma cstrLen_eq_length (l : List Nat) (h : ∀ x ∈ l, x ≠ 0) : cstrLen l = l.length := by
  rw [cstrLen, takeWhile_ne_zero_eq_self l h]

lemma cstrLen_le_length (l : List Nat) : cstrLen l ≤ l.length :=
  (List.takeWhile_sublist _).length_le

lemma cstrContains_eq_false (l : List Nat) (c : Nat) (hz : ∀ x ∈ l, x ≠ 0)
    (hc : c ∉ l) : cstrContains l c = false := by
  rw [cstrContains, takeWhile_ne_zero_eq_self l hz]
  simpa using hc

lemma fgetsC_some_facts (f : CFile) (line : List Nat) (f2 : CFile)
    (h : fgetsC f = some (line, f2)) :
    f2.content = f.content ∧ f2.pos = f.pos + line.length ∧
    f.pos < f.content.length ∧ 1 ≤ line.length ∧ line.length ≤ 66 ∧
    f2.pos ≤ f.content.length := by
  rw [fgetsC] at h
  by_cases hp : f.content.length ≤ f.pos
  · rw [if_pos hp] at h
    exact absurd h (by simp)
  · rw [if_neg hp] at h
    push_neg at hp
    have hdrop : (f.content.drop f.pos).length = f.content.length - f.pos := by
      simp
    have hcaplen1 : 1 ≤ ((f.content.drop f.pos).take 66).length := by
      rw [List.length_take, hdrop]
      omega
    have hcaplen66 : ((f.content.drop f.pos).take 66).length ≤ 66 := by
      rw [List.length_take]
      omega
    have hcaplenrem : ((f.content.drop f.pos).take 66).length ≤ f.content.length - f.pos := by
      rw [List.length_take, hdrop]
      omega
    set cap := (f.content.drop f.pos).take 66 with hcap
    set taken := min (newlineIdx cap + 1) cap.length with htaken
    have htc : taken ≤ cap.length := Nat.min_le_right _ _
    have ht1 : 1 ≤ taken := by
      rw [htaken]
      omega
    have hinj := Option.some.inj h
    have hline : line = cap.take taken := (congrArg Prod.fst hinj).symm
    have hf2 : f2 = CFile.mk f.content (f.pos + taken) := (congrArg Prod.snd hinj).symm
    have hlinelen : line.length = taken := by
      rw [hline, List.length_take]
      omega
    refine ⟨by rw [hf2], by rw [hf2, hlinelen], hp, by omega, by omega, ?_⟩
    rw [hf2]
    simp only
    omega

lemma dearmorLoopF_succ_none (fuel : Nat) (f : CFile) (hg : fgetsC f = none) :
    dearmorLoopF (fuel + 1) f = (none, f) := by
  rw [dearmorLoopF, hg]

lemma dearmorLoopF_succ_some (fuel : Nat) (f f2 : CFile) (line : List Nat)
    (hg : fgetsC f = some (line, f2)) :
    dearmorLoopF (fuel + 1) f =
      if cstrContains line 45 || cstrContains line 58 then dearmorLoopF fuel f2
      else if cstrLen line != 65 then dearmorLoopF fuel f2
      else (some (decodeTimestampLine line), f2) := by
  rw [dearmorLoopF, hg]

lemma cfileLinesF_succ_none (fuel : Nat) (f : CFile) (hg : fgetsC f = none) :
    cfileLinesF (fuel + 1) f = [] := by
  rw [cfileLinesF, hg]

lemma cfileLinesF_succ_some (fuel : Nat) (f f2 : CFile) (line : List Nat)
    (hg : fgetsC f = some (line, f2)) :
    cfileLinesF (fuel + 1) f = (line, f2) :: cfileLinesF fuel f2 := by
  rw [cfileLinesF, hg]

lemma lineQualifies_true_iff (l : List Nat) :
    lineQualifies l = true ↔
      cstrContains l 45 = false ∧ cstrContains l 58 = false ∧ cstrLen l = 65 := by
  rw [lineQualifies]
  simp [Bool.and_eq_true]
  tauto

lemma dearmorLoopF_succ_skip (fuel : Nat) (f f2 : CFile) (line : List Nat)
    (hg : fgetsC f = some (line, f2)) (hq : lineQualifies line = false) :
    dearmorLoopF (fuel + 1) f = dearmorLoopF fuel f2 := by
  rw [dearmorLoopF_succ_some fuel f f2 line hg]
  by_cases h1 : (cstrContains line 45 || cstrContains line 58) = true
  · rw [if_pos h1]
  · rw [if_neg h1]
    have h1' : (cstrContains line 45 || cstrContains line 58) = false := by
      simpa using h1
    have h2 : (cstrLen line != 65) = true := by
      rw [lineQualifies, h1'] at hq
      simp only [Bool.not_false, Bool.true_and] at hq
      simpa [bne] using hq
    rw [if_pos h2]

lemma dearmorLoopF_succ_found (fuel : Nat) (f f2 : CFile) (line : List Nat)
    (hg : fgetsC f = some (line, f2)) (hq : lineQualifies line = true) :
    dearmorLoopF (fuel + 1) f = (some (decodeTimestampLine line), f2) := by
  rw [dearmorLoopF_succ_some fuel f f2 line hg]
  rcases (lineQualifies_true_iff line).mp hq with ⟨h45, h58, hlen⟩
  rw [h45, h58, hlen]
  simp

lemma dearmorLoopF_content (fuel : Nat) : ∀ f : CFile,
    (dearmorLoopF fuel f).2.content = f.content := by
  induction fuel with
  | zero => intro f; rfl
  | succ n ih =>
    intro f
    cases hg : fgetsC f with
    | none => rw [dearmorLoopF_succ_none n f hg]
    | some lf =>
      obtain ⟨line, f2⟩ := lf
      have hc := (fgetsC_some_facts f line f2 hg).1
      by_cases hq : lineQualifies line = true
      · rw [dearmorLoopF_succ_found n f f2 line hg hq]
        exact hc
      · rw [dearmorLoopF_succ_skip n f f2 line hg (by simpa using hq)]
        rw [ih f2, hc]

lemma dearmorLoopF_find_none (fuel : Nat) : ∀ f : CFile,
    (cfileLinesF fuel f).find? (fun lf => lineQualifies lf.1) = none →
    (dearmorLoopF fuel f).1 = none := by
  induction fuel with
  | zero => intro f _; rfl
  | succ n ih =>
    intro f hfind
    cases hg : fgetsC f with
    | none => rw [dearmorLoopF_succ_none n f hg]
    | some lf =>
      obtain ⟨line, f2⟩ := lf
      rw [cfileLinesF_succ_some n f f2 line hg] at hfind
      by_cases hq : lineQualifies line = true
      · exfalso
        rw [List.find?] at hfind
        simp only [hq] at hfind
        exact absurd hfind (by simp)
      · have hq' : lineQualifies line = false := by simpa using hq
        rw [dearmorLoopF_succ_skip n f f2 line hg hq']
        apply ih f2
        rw [List.find?] at hfind
        simpa only [hq'] using hfind

lemma dearmorLoopF_find_some (fuel : Nat) : ∀ (f : CFile) (line : List Nat) (g : CFile),
    (cfileLinesF fuel f).find? (fun lf => lineQualifies lf.1) = some (line, g) →
    dearmorLoopF fuel f = (some (decodeTimestampLine line), g) := by
  induction fuel with
  | zero =>
    intro f line g hfind
    exact absurd hfind (by simp [cfileLinesF])
  | succ n ih =>
    intro f line g hfind
    cases hg : fgetsC f with
    | none =>
      rw [cfileLinesF_succ_none n f hg] at hfind
      exact absurd hfind (by simp)
    | some lf =>
      obtain ⟨l0, f2⟩ := lf
      rw [cfileLinesF_succ_some n f f2 l0 hg] at hfind
      by_cases hq : lineQualifies l0 = true
      · rw [List.find?] at hfind
        simp only [hq] at hfind
        have : (l0, f2) = (line, g) := by
          exact Option.some.inj hfind
        have hl : l0 = line := congrArg Prod.fst this
        have hf : f2 = g := congrArg Prod.snd this
        rw [dearmorLoopF_succ_found n f f2 l0 hg hq, hl, hf]
      · have hq' : lineQualifies l0 = false := by simpa using hq
        rw [dearmorLoopF_succ_skip n f f2 l0 hg hq']
        apply ih f2
        rw [List.find?] at hfind
        simpa only [hq'] using hfind

lemma newlineIdx_append_cons (body rest : List Nat) (h : 10 ∉ body) :
    newlineIdx (body ++ 10 :: rest) = body.length := by
  induction body with
  | nil => simp [newlineIdx]
  | cons a t ih =>
    have ha : a ≠ 10 := by
      intro hh
      exact h (by simp [hh])
    have ht : 10 ∉ t := fun hm => h (List.mem_cons_of_mem a hm)
    simp [newlineIdx, ha, ih ht]

lemma fgetsC_exact (c : List Nat) (p : Nat) (body rest : List Nat)
    (hdrop : c.drop p = body ++ 10 :: rest) (hno : 10 ∉ body) (hlen : body.length ≤ 65) :
    fgetsC (CFile.mk c p) = some (body ++ [10], CFile.mk c (p + (body.length + 1))) := by
  have hplen : p < c.length := by
    by_contra hcon
    push_neg at hcon
    have hnil : c.drop p = [] := List.drop_eq_nil_of_le hcon
    rw [hdrop] at hnil
    simp at hnil
  have hcap : (c.drop p).take 66 = body ++ 10 :: rest.take (65 - body.length) := by
    rw [hdrop, List.take_append_eq_append_take, List.take_of_length_le (by omega)]
    congr 1
    have h66 : 66 - body.length = (65 - body.length) + 1 := by omega
    rw [h66, List.take_succ_cons]
  have hni : newlineIdx ((c.drop p).take 66) = body.length := by
    rw [hcap]
    exact newlineIdx_append_cons body _ hno
  have hcaplen : ((c.drop p).take 66).length =
      body.length + 1 + (rest.take (65 - body.length)).length := by
    rw [hcap]
    simp
    omega
  have hmin : min (newlineIdx ((c.drop p).take 66) + 1) ((c.drop p).take 66).length =
      body.length + 1 := by
    rw [hni, hcaplen]
    omega
  have htake : ((c.drop p).take 66).take (body.length + 1) = body ++ [10] := by
    rw [hcap, List.take_append_eq_append_take, List.take_of_length_le (by omega)]
    congr 1
    have h1 : body.length + 1 - body.length = 1 := by omega
    rw [h1]
    rfl
  rw [fgetsC]
  rw [if_neg (by simp only; omega)]
  simp only
  rw [hmin, htake]

lemma getLast?_eq_some_decomp (l : List Nat) (a : Nat) (h : l.getLast? = some a) :
    l = l.dropLast ++ [a] := by
  induction l with
  | nil => simp at h
  | cons x t ih =>
    cases t with
    | nil =>
      simp [List.getLast?] at h
      simp [h]
    | cons y u =>
      rw [List.getLast?_cons_cons] at h
      have hrec := ih h
      calc x :: y :: u = x :: ((y :: u).dropLast ++ [a]) := by rw [← hrec]
        _ = (x :: y :: u).dropLast ++ [a] := by simp

lemma dearmorLoopF_skip_chunks (chunks : List (List Nat)) :
    ∀ (c : List Nat) (p fuel : Nat) (rest : List Nat),
    c.drop p = chunks.flatten ++ rest →
    (∀ ch ∈ chunks, ch.getLast? = some 10 ∧ 10 ∉ ch.dropLast ∧ ch.length ≤ 66 ∧
      lineQualifies ch = false) →
    chunks.length ≤ fuel →
    dearmorLoopF fuel (CFile.mk c p) =
      dearmorLoopF (fuel - chunks.length) (CFile.mk c (p + chunks.flatten.length)) := by
  induction chunks with
  | nil =>
    intro c p fuel rest hdrop hch hlen
    simp
  | cons ch chs ih =>
    intro c p fuel rest hdrop hch hlen
    obtain ⟨hlast, hnomem, hle, hnq⟩ := hch ch (by simp)
    have hdecomp : ch = ch.dropLast ++ [10] := getLast?_eq_some_decomp ch 10 hlast
    have hchl : ch.length = ch.dropLast.length + 1 := by
      conv_lhs => rw [hdecomp]
      simp
    cases fuel with
    | zero => simp at hlen
    | succ fuel' =>
      have hbodylen : ch.dropLast.length ≤ 65 := by omega
      have hdrop' : c.drop p = ch.dropLast ++ 10 :: (chs.flatten ++ rest) := by
        rw [hdrop]
        conv_lhs => rw [List.flatten, hdecomp]
        simp
      have hg := fgetsC_exact c p ch.dropLast (chs.flatten ++ rest) hdrop' hnomem hbodylen
      rw [← hdecomp] at hg
      rw [dearmorLoopF_succ_skip fuel' (CFile.mk c p)
        (CFile.mk c (p + (ch.dropLast.length + 1))) ch hg hnq]
      have hdropnext : c.drop (p + (ch.dropLast.length + 1)) = chs.flatten ++ rest := by
        rw [← List.drop_drop (ch.dropLast.length + 1) p c, hdrop']
        have hassoc : ch.dropLast ++ 10 :: (chs.flatten ++ rest) =
            (ch.dropLast ++ [10]) ++ (chs.flatten ++ rest) := by
          simp
        rw [hassoc]
        have hlen2 : (ch.dropLast ++ [10]).length = ch.dropLast.length + 1 := by simp
        rw [← hlen2, List.drop_left]
      have hchs : ∀ x ∈ chs, x.getLast? = some 10 ∧ 10 ∉ x.dropLast ∧ x.length ≤ 66 ∧
          lineQualifies x = false := fun x hx => hch x (List.mem_cons_of_mem ch hx)
      rw [ih c (p + (ch.dropLast.length + 1)) fuel' rest hdropnext hchs (by simp at hlen; omega)]
      have e1 : fuel' - chs.length = fuel' + 1 - (ch :: chs).length := by
        simp
      have e2 : p + (ch.dropLast.length + 1) + chs.flatten.length =
          p + ((ch :: chs).flatten).length := by
        rw [List.flatten]
        simp
        omega
      rw [e1, e2]

lemma decode8 (c0 c1 c2 c3 c4 c5 r0 r1 r2 r3 r4 r5 : Nat)
    (h0 : base64_rank c0 = r0) (b0 : r0 < 64)
    (h1 : base64_rank c1 = r1) (b1 : r1 < 64)
    (h2 : base64_rank c2 = r2) (b2 : r2 < 64) (n2 : c2 ≠ 61)
    (h3 : base64_rank c3 = r3) (b3 : r3 < 64) (n3 : c3 ≠ 61)
    (h4 : base64_rank c4 = r4) (b4 : r4 < 64)
    (h5 : base64_rank c5 = r5) (b5 : r5 < 64) :
    g_base64_decode_step [c0, c1, c2, c3, c4, c5, 61, 61] =
      [r0 * 4 + r1 / 16, r1 % 16 * 16 + r2 / 4, r2 % 4 * 64 + r3, r4 * 4 + r5 / 16] := by
  have e61 : base64_rank 61 = 0 := by decide
  have x0 : r0 ≠ 255 := by omega
  have x1 : r1 ≠ 255 := by omega
  have x2 : r2 ≠ 255 := by omega
  have x3 : r3 ≠ 255 := by omega
  have x4 : r4 ≠ 255 := by omega
  have x5 : r5 ≠ 255 := by omega
  simp [g_base64_decode_step, b64_step_char, h0, h1, h2, h3, h4, h5, e61,
    x0, x1, x2, x3, x4, x5, n2, n3]
  omega

lemma rank_b64c (r : Nat) (h : r < 64) : base64_rank (b64c r) = r := by
  interval_cases r <;> decide

lemma b64c_avoid (r : Nat) :
    b64c r ≠ 45 ∧ b64c r ≠ 58 ∧ b64c r ≠ 0 ∧ b64c r ≠ 10 ∧ b64c r ≠ 61 := by
  unfold b64c
  split_ifs <;> omega

lemma decode_window (a b c d e : Nat) (ha : a < 256) (hb : b < 256) (hc : c < 256)
    (hd : d < 256) (he : e < 256) :
    g_base64_decode_step
      [b64c (a / 4), b64c (a % 4 * 16 + b / 16), b64c (b % 16 * 4 + c / 64), b64c (c % 64),
       b64c (d / 4), b64c (d % 4 * 16 + e / 16), 61, 61] = [a, b, c, d] := by
  rw [decode8 _ _ _ _ _ _ (a / 4) (a % 4 * 16 + b / 16) (b % 16 * 4 + c / 64) (c % 64)
    (d / 4) (d % 4 * 16 + e / 16)
    (rank_b64c _ (by omega)) (by omega)
    (rank_b64c _ (by omega)) (by omega)
    (rank_b64c _ (by omega)) (by omega) (b64c_avoid _).2.2.2.2
    (rank_b64c _ (by omega)) (by omega) (b64c_avoid _).2.2.2.2
    (rank_b64c _ (by omega)) (by omega)
    (rank_b64c _ (by omega)) (by omega)]
  simp only [List.cons.injEq, and_true]
  refine ⟨by omega, by omega, by omega, by omega⟩

lemma encodeBody_mem : ∀ (bs : List Nat), ∀ ch ∈ encodeBody bs, ∃ r, ch = b64c r
  | [] => by simp [encodeBody]
  | [a] => by simp [encodeBody]
  | [a, b] => by simp [encodeBody]
  | a :: b :: c :: rest => by
    intro ch hch
    rw [encodeBody] at hch
    rcases List.mem_append.mp hch with h | h
    · simp [encode3] at h
      rcases h with h | h | h | h <;> exact ⟨_, h⟩
    · exact encodeBody_mem rest ch h

lemma encodeBody_length : ∀ bs : List Nat, (encodeBody bs).length = bs.length / 3 * 4
  | [] => by simp [encodeBody]
  | [a] => by simp [encodeBody]
  | [a, b] => by simp [encodeBody]
  | a :: b :: c :: rest => by
    rw [encodeBody]
    simp [encode3, encodeBody_length rest]
    omega

lemma drop4_take6 (a0 a1 a2 a3 a4 a5 a6 a7 a8 a9 : Nat) (t : List Nat) :
    ((a0 :: a1 :: a2 :: a3 :: a4 :: a5 :: a6 :: a7 :: a8 :: a9 :: t).drop 4).take 6 =
      [a4, a5, a6, a7, a8, a9] := by
  rfl

lemma raw_extract_of_cons (x0 x1 x2 x3 x4 x5 x6 : Nat) (t : List Nat) :
    (pgp_key_raw_extract_timestamp
      (CFile.mk (x0 :: x1 :: x2 :: x3 :: x4 :: x5 :: x6 :: t) 0)).1 = some [x3, x4, x5, x6] := by
  rfl

lemma length_le_flatten_length (chunks : List (List Nat))
    (h : ∀ ch ∈ chunks, ch ≠ []) : chunks.length ≤ chunks.flatten.length := by
  induction chunks with
  | nil => simp
  | cons ch chs ih =>
    have h1 : ch ≠ [] := h ch (by simp)
    have h2 : 1 ≤ ch.length := List.length_pos.mpr h1
    have h3 := ih (fun x hx => h x (List.mem_cons_of_mem ch hx))
    simp only [List.flatten_cons, List.length_cons, List.length_append]
    omega

lemma encodeBody_no_forbidden (bs : List Nat) :
    ∀ ch ∈ encodeBody bs, ch ≠ 45 ∧ ch ≠ 58 ∧ ch ≠ 0 ∧ ch ≠ 10 ∧ ch ≠ 61 := by
  intro ch hch
  obtain ⟨r, hr⟩ := encodeBody_mem bs ch hch
  rw [hr]
  exact b64c_avoid r

lemma bodyLine_qualifies (bs : List Nat) (hlen : (encodeBody bs).length = 64) :
    lineQualifies (encodeBody bs ++ [10]) = true := by
  have hz : ∀ x ∈ encodeBody bs ++ [10], x ≠ 0 := by
    intro x hx
    rcases List.mem_append.mp hx with h | h
    · exact (encodeBody_no_forbidden bs x h).2.2.1
    · simp at h
      omega
  have h45 : cstrContains (encodeBody bs ++ [10]) 45 = false := by
    apply cstrContains_eq_false _ _ hz
    intro hm
    rcases List.mem_append.mp hm with h | h
    · exact (encodeBody_no_forbidden bs 45 h).1 rfl
    · simp at h
  have h58 : cstrContains (encodeBody bs ++ [10]) 58 = false := by
    apply cstrContains_eq_false _ _ hz
    intro hm
    rcases List.mem_append.mp hm with h | h
    · exact (encodeBody_no_forbidden bs 58 h).2.1 rfl
    · simp at h
  have hl : cstrLen (encodeBody bs ++ [10]) = 65 := by
    rw [cstrLen_eq_length _ hz]
    simp [hlen]
  exact (lineQualifies_true_iff _).mpr ⟨h45, h58, hl⟩

/-- C1.  For a version-4 key packet of at least 48 bytes (decomposed here as
nine explicit leading bytes, 39 further bytes `mid` completing the first
48-byte group, and an arbitrary remainder `after`), wrapped into an armored
text consisting of the 5 detection bytes `-----`, any preamble that `fgets`
delivers as header-style lines (each newline-terminated, at most 66 bytes,
and rejected by the line test, as the rest of the BEGIN line, `Comment:`
lines and the blank separator line all are), the first 64-character base64
body line encoding the packet's first 48 bytes, and an arbitrary trailer,
the armored extractor returns exactly the 4 timestamp bytes that the raw
extractor reads from the packet itself at offset 3. -/
theorem armored_and_raw_extractors_agree
    (b0 b1 b2 b3 b4 b5 b6 b7 b8 : Nat) (mid after preamble trailer : List Nat)
    (chunks : List (List Nat))
    (hb : b0 < 256 ∧ b1 < 256 ∧ b2 < 256 ∧ b3 < 256 ∧ b4 < 256 ∧ b5 < 256 ∧
      b6 < 256 ∧ b7 < 256 ∧ b8 < 256)
    (hmidlen : mid.length = 39)
    (hpre : preamble = chunks.flatten)
    (hch : ∀ ch ∈ chunks, ch.getLast? = some 10 ∧ 10 ∉ ch.dropLast ∧ ch.length ≤ 66 ∧
      lineQualifies ch = false) :
    (pgp_key_dearmor_extract_timestamp (CFile.mk
        ([45, 45, 45, 45, 45] ++ preamble ++
          (encodeBody (b0 :: b1 :: b2 :: b3 :: b4 :: b5 :: b6 :: b7 :: b8 :: mid) ++ [10]) ++
          trailer) 5)).1
      = (pgp_key_raw_extract_timestamp (CFile.mk
          (b0 :: b1 :: b2 :: b3 :: b4 :: b5 :: b6 :: b7 :: b8 :: (mid ++ after)) 0)).1
    ∧ (pgp_key_raw_extract_timestamp (CFile.mk
          (b0 :: b1 :: b2 :: b3 :: b4 :: b5 :: b6 :: b7 :: b8 :: (mid ++ after)) 0)).1
        = some [b3, b4, b5, b6] := by
  obtain ⟨hb0, hb1, hb2, hb3, hb4, hb5, hb6, hb7, hb8⟩ := hb
  have hraw := raw_extract_of_cons b0 b1 b2 b3 b4 b5 b6 (b7 :: b8 :: (mid ++ after))
  refine ⟨?_, hraw⟩
  rw [hraw]
  set pkt9 : List Nat := b0 :: b1 :: b2 :: b3 :: b4 :: b5 :: b6 :: b7 :: b8 :: mid with hpkt9
  have hlen48 : pkt9.length = 48 := by
    rw [hpkt9]
    simp [hmidlen]
  have hblen : (encodeBody pkt9).length = 64 := by
    rw [encodeBody_length, hlen48]
  set A : List Nat := [45, 45, 45, 45, 45] ++ preamble ++ (encodeBody pkt9 ++ [10]) ++ trailer
    with hA
  have hAlen : A.length = 5 + (preamble.length + (65 + trailer.length)) := by
    rw [hA]
    simp [hblen]
    omega
  have hdrop5 : A.drop 5 = chunks.flatten ++ ((encodeBody pkt9 ++ [10]) ++ trailer) := by
    rw [hA, ← hpre]
    simp only [List.append_assoc]
    have h5 : (5 : Nat) = ([45, 45, 45, 45, 45] : List Nat).length := by rfl
    rw [h5, List.drop_left]
  have hchnil : ∀ ch ∈ chunks, ch ≠ [] := by
    intro ch hcm hnil
    have hg := (hch ch hcm).1
    rw [hnil] at hg
    simp at hg
  have hchlen : chunks.length ≤ chunks.flatten.length :=
    length_le_flatten_length chunks hchnil
  have hprelen : chunks.flatten.length = preamble.length := by rw [hpre]
  have hfuel : chunks.length ≤ A.length + 1 - 5 := by omega
  show (dearmorLoopF (A.length + 1 - 5) (CFile.mk A 5)).1 = some [b3, b4, b5, b6]
  rw [dearmorLoopF_skip_chunks chunks A 5 (A.length + 1 - 5)
    ((encodeBody pkt9 ++ [10]) ++ trailer) hdrop5 hch hfuel]
  have hdropP2 : A.drop (5 + chunks.flatten.length) = encodeBody pkt9 ++ 10 :: trailer := by
    rw [← List.drop_drop chunks.flatten.length 5 A, hdrop5, List.drop_left]
    simp
  obtain ⟨m, hm⟩ : ∃ m, A.length + 1 - 5 - chunks.length = m + 1 := by
    refine ⟨A.length + 1 - 5 - chunks.length - 1, ?_⟩
    omega
  rw [hm]
  have h10body : 10 ∉ encodeBody pkt9 := by
    intro hmem
    exact (encodeBody_no_forbidden pkt9 10 hmem).2.2.2.1 rfl
  have hg := fgetsC_exact A (5 + chunks.flatten.length) (encodeBody pkt9) trailer
    hdropP2 h10body (by omega)
  have hq := bodyLine_qualifies pkt9 hblen
  rw [dearmorLoopF_succ_found m _ _ _ hg hq]
  show some (decodeTimestampLine (encodeBody pkt9 ++ [10])) = some [b3, b4, b5, b6]
  rw [decodeTimestampLine]
  have hbody3 : encodeBody pkt9 =
      encode3 b0 b1 b2 ++ (encode3 b3 b4 b5 ++ (encode3 b6 b7 b8 ++ encodeBody mid)) := by
    rw [hpkt9, encodeBody, encodeBody, encodeBody]
  have hshape : encodeBody pkt9 ++ [10] =
      b64c (b0 / 4) :: b64c (b0 % 4 * 16 + b1 / 16) :: b64c (b1 % 16 * 4 + b2 / 64) ::
      b64c (b2 % 64) :: b64c (b3 / 4) :: b64c (b3 % 4 * 16 + b4 / 16) ::
      b64c (b4 % 16 * 4 + b5 / 64) :: b64c (b5 % 64) :: b64c (b6 / 4) ::
      b64c (b6 % 4 * 16 + b7 / 16) ::
      (b64c (b7 % 16 * 4 + b8 / 64) :: b64c (b8 % 64) :: (encodeBody mid ++ [10])) := by
    rw [hbody3]
    simp [encode3]
  rw [hshape, drop4_take6]
  have hwin := decode_window b3 b4 b5 b6 b7 hb3 hb4 hb5 hb6 hb7
  simpa using hwin

/-- Witness for C1: a concrete 48-byte packet with timestamp bytes
101, 62, 188, 222, wrapped with the standard BEGIN line remainder and a blank
separator line; both extractors deliver exactly those 4 bytes. -/
theorem armored_and_raw_extractors_agree_witness :
    (pgp_key_dearmor_extract_timestamp (CFile.mk
        ([45, 45, 45, 45, 45] ++
          [66, 69, 71, 73, 78, 32, 80, 71, 80, 32, 80, 85, 66, 76, 73, 67, 32, 75, 69, 89,
            32, 66, 76, 79, 67, 75, 45, 45, 45, 45, 45, 10, 10] ++
          (encodeBody (153 :: 1 :: 4 :: 101 :: 62 :: 188 :: 222 :: 0 :: 0 ::
            List.replicate 39 0) ++ [10]) ++ []) 5)).1
      = (pgp_key_raw_extract_timestamp (CFile.mk
          (153 :: 1 :: 4 :: 101 :: 62 :: 188 :: 222 :: 0 :: 0 ::
            (List.replicate 39 0 ++ [])) 0)).1
    ∧ (pgp_key_raw_extract_timestamp (CFile.mk
          (153 :: 1 :: 4 :: 101 :: 62 :: 188 :: 222 :: 0 :: 0 ::
            (List.replicate 39 0 ++ [])) 0)).1
        = some [101, 62, 188, 222] :=
  armored_and_raw_extractors_agree 153 1 4 101 62 188 222 0 0
    (List.replicate 39 0) []
    [66, 69, 71, 73, 78, 32, 80, 71, 80, 32, 80, 85, 66, 76, 73, 67, 32, 75, 69, 89,
      32, 66, 76, 79, 67, 75, 45, 45, 45, 45, 45, 10, 10] []
    [[66, 69, 71, 73, 78, 32, 80, 71, 80, 32, 80, 85, 66, 76, 73, 67, 32, 75, 69, 89,
      32, 66, 76, 79, 67, 75, 45, 45, 45, 45, 45, 10], [10]]
    (by decide) (by decide) (by decide) (by decide)

lemma base64_rank_lt (c : Nat) (h : base64_rank c ≠ 255) : base64_rank c < 64 := by
  unfold base64_rank at h ⊢
  split_ifs at h ⊢ <;> omega

lemma decode8_length (c0 c1 c2 c3 c4 c5 : Nat)
    (h : ∀ c ∈ [c0, c1, c2, c3, c4, c5], base64_rank c ≠ 255 ∧ c ≠ 61) :
    (g_base64_decode_step [c0, c1, c2, c3, c4, c5, 61, 61]).length = 4 := by
  have h0 := h c0 (by simp)
  have h1 := h c1 (by simp)
  have h2 := h c2 (by simp)
  have h3 := h c3 (by simp)
  have h4 := h c4 (by simp)
  have h5 := h c5 (by simp)
  rw [decode8 c0 c1 c2 c3 c4 c5 _ _ _ _ _ _
    rfl (base64_rank_lt c0 h0.1)
    rfl (base64_rank_lt c1 h1.1)
    rfl (base64_rank_lt c2 h2.1) h2.2
    rfl (base64_rank_lt c3 h3.1) h3.2
    rfl (base64_rank_lt c4 h4.1)
    rfl (base64_rank_lt c5 h5.1)]
  rfl

/-- C2.  The dearmor loop selects exactly the first `fgets` line that passes
the line test: if no line of the stream qualifies, extraction fails
(`NoTimestampLineFound`); if the first qualifying line is `line`, the result
is the decode of that line, and that line contains neither 45 (`-`) nor 58
(`:`) and has `strlen` exactly 65, so any line containing those bytes, even
one of length 65, is never the selected line. -/
theorem dearmor_line_selection (f : CFile) :
    ((cfileLines f).find? (fun lf => lineQualifies lf.1) = none →
      (pgp_key_dearmor_extract_timestamp f).1 = none)
  ∧ (∀ line g, (cfileLines f).find? (fun lf => lineQualifies lf.1) = some (line, g) →
      (pgp_key_dearmor_extract_timestamp f).1 = some (decodeTimestampLine line)
      ∧ cstrContains line 45 = false ∧ cstrContains line 58 = false ∧ cstrLen line = 65)
  ∧ ((cfileLines f).find? (fun lf => lineQualifies lf.1) = none ↔
      ∀ lf ∈ cfileLines f, lineQualifies lf.1 = false) := by
  refine ⟨?_, ?_, ?_⟩
  · intro h
    rw [cfileLines] at h
    rw [pgp_key_dearmor_extract_timestamp]
    exact dearmorLoopF_find_none _ f h
  · intro line g h
    rw [cfileLines] at h
    refine ⟨?_, ?_⟩
    · rw [pgp_key_dearmor_extract_timestamp, dearmorLoopF_find_some _ f line g h]
    · have hq : lineQualifies line = true := by simpa using List.find?_some h
      exact (lineQualifies_true_iff line).mp hq
  · rw [List.find?_eq_none]
    constructor
    · intro h lf hm
      simpa using h lf hm
    · intro h lf hm
      simp [h lf hm]

set_option maxRecDepth 8000 in
/-- Witness for C2: a stream whose first line is a 65-byte `C:`-style header
line (skipped although its length is 65) followed by a 64-byte body line;
the second line is selected and decoded. -/
theorem dearmor_line_selection_witness :
    (pgp_key_dearmor_extract_timestamp
        (CFile.mk ((67 :: 58 :: List.replicate 62 120 ++ [10]) ++
          (List.replicate 64 65 ++ [10])) 0)).1
      = some (decodeTimestampLine (List.replicate 64 65 ++ [10]))
    ∧ cstrContains (List.replicate 64 65 ++ [10]) 45 = false
    ∧ cstrContains (List.replicate 64 65 ++ [10]) 58 = false
    ∧ cstrLen (List.replicate 64 65 ++ [10]) = 65 :=
  (dearmor_line_selection
      (CFile.mk ((67 :: 58 :: List.replicate 62 120 ++ [10]) ++
        (List.replicate 64 65 ++ [10])) 0)).2.1
    (List.replicate 64 65 ++ [10])
    (CFile.mk ((67 :: 58 :: List.replicate 62 120 ++ [10]) ++
      (List.replicate 64 65 ++ [10])) 130)
    (by decide)

/-- C3.  When the first qualifying line is found, the extractor returns the
step-decode of exactly the 6 bytes at offset 4 of that line with two pad
bytes appended, stops with the stream positioned right after that line (so
no further line is read), the taken slice has exactly 6 bytes, and whenever
those 6 bytes are genuine base64 alphabet bytes the decode writes exactly 4
bytes into the timestamp buffer. -/
theorem dearmor_decode_and_stop (f : CFile) (line : List Nat) (g : CFile)
    (hfind : (cfileLines f).find? (fun lf => lineQualifies lf.1) = some (line, g)) :
    pgp_key_dearmor_extract_timestamp f =
      (some (g_base64_decode_step ((line.drop 4).take 6 ++ [61, 61])), g)
    ∧ ((line.drop 4).take 6).length = 6
    ∧ ((∀ c ∈ (line.drop 4).take 6, base64_rank c ≠ 255 ∧ c ≠ 61) →
        (g_base64_decode_step ((line.drop 4).take 6 ++ [61, 61])).length = 4) := by
  rw [cfileLines] at hfind
  have hq : lineQualifies line = true := by simpa using List.find?_some hfind
  have hlen : cstrLen line = 65 := ((lineQualifies_true_iff line).mp hq).2.2
  have hlinelen : 65 ≤ line.length := by
    have := cstrLen_le_length line
    omega
  have hw6 : ((line.drop 4).take 6).length = 6 := by
    rw [List.length_take, List.length_drop]
    omega
  refine ⟨?_, hw6, ?_⟩
  · rw [pgp_key_dearmor_extract_timestamp, dearmorLoopF_find_some _ f line g hfind,
      decodeTimestampLine]
  · intro hvalid
    rcases w6 : (line.drop 4).take 6 with _ | ⟨c0, w5⟩
    · rw [w6] at hw6
      simp at hw6
    rcases w5 with _ | ⟨c1, w4⟩
    · rw [w6] at hw6
      simp at hw6
    rcases w4 with _ | ⟨c2, w3⟩
    · rw [w6] at hw6
      simp at hw6
    rcases w3 with _ | ⟨c3, w2⟩
    · rw [w6] at hw6
      simp at hw6
    rcases w2 with _ | ⟨c4, w1⟩
    · rw [w6] at hw6
      simp at hw6
    rcases w1 with _ | ⟨c5, w0⟩
    · rw [w6] at hw6
      simp at hw6
    rcases w0 with _ | ⟨c6, wrest⟩
    · rw [w6] at hvalid
      exact decode8_length c0 c1 c2 c3 c4 c5 (by simpa using hvalid)
    · rw [w6] at hw6
      simp at hw6

set_option maxRecDepth 8000 in
/-- Witness for C3: a stream consisting of one 64-byte body line of byte 66
(`B`); the decode slice is the 6 bytes at offset 4 and decodes to 4 bytes. -/
theorem dearmor_decode_and_stop_witness :
    pgp_key_dearmor_extract_timestamp (CFile.mk (List.replicate 64 66 ++ [10]) 0) =
      (some (g_base64_decode_step
        (((List.replicate 64 66 ++ [10]).drop 4).take 6 ++ [61, 61])),
        CFile.mk (List.replicate 64 66 ++ [10]) 65)
    ∧ (((List.replicate 64 66 ++ [10]).drop 4).take 6).length = 6
    ∧ ((∀ c ∈ ((List.replicate 64 66 ++ [10]).drop 4).take 6,
          base64_rank c ≠ 255 ∧ c ≠ 61) →
        (g_base64_decode_step
          (((List.replicate 64 66 ++ [10]).drop 4).take 6 ++ [61, 61])).length = 4) :=
  dearmor_decode_and_stop (CFile.mk (List.replicate 64 66 ++ [10]) 0)
    (List.replicate 64 66 ++ [10])
    (CFile.mk (List.replicate 64 66 ++ [10]) 65)
    (by decide)

lemma freadBytes_zero (content : List Nat) (n : Nat) :
    freadBytes (CFile.mk content 0) n =
      (content.take n, CFile.mk content (content.take n).length) := by
  rw [freadBytes]
  simp

lemma freadBytes_zero_of_le (content : List Nat) (n : Nat) (h : n ≤ content.length) :
    freadBytes (CFile.mk content 0) n = (content.take n, CFile.mk content n) := by
  rw [freadBytes_zero]
  have hl : (content.take n).length = n := by
    rw [List.length_take]
    omega
  rw [hl]

lemma raw_extract_fst (content : List Nat) (p : Nat) :
    (pgp_key_raw_extract_timestamp (CFile.mk content p)).1 =
      if ((content.drop 3).take 4).length < 4 then none
      else some ((content.drop 3).take 4) := by
  by_cases h : content.length - 3 < 4 <;>
    simp [pgp_key_raw_extract_timestamp, fseekSet, freadBytes, h]

lemma run_raw_eq (content : List Nat) (h5 : 5 ≤ content.length)
    (hnd : content.take 5 ≠ [45, 45, 45, 45, 45]) :
    pgp_key_extract_timestamp_run (CFile.mk content 0) =
      pgp_key_raw_extract_timestamp (CFile.mk content 5) := by
  rw [pgp_key_extract_timestamp_run, freadBytes_zero_of_le content 5 h5]
  have hl : (content.take 5).length = 5 := by
    rw [List.length_take]
    omega
  show (if (content.take 5).length < 5 then (none, CFile.mk content 5)
    else if content.take 5 ≠ [45, 45, 45, 45, 45] then
      pgp_key_raw_extract_timestamp (CFile.mk content 5)
    else pgp_key_dearmor_extract_timestamp (CFile.mk content 5)) =
      pgp_key_raw_extract_timestamp (CFile.mk content 5)
  rw [if_neg (by omega), if_pos hnd]

lemma run_armored_eq (content : List Nat) (hd : content.take 5 = [45, 45, 45, 45, 45])
    (h5 : 5 ≤ content.length) :
    pgp_key_extract_timestamp_run (CFile.mk content 0) =
      pgp_key_dearmor_extract_timestamp (CFile.mk content 5) := by
  rw [pgp_key_extract_timestamp_run, freadBytes_zero_of_le content 5 h5]
  have hl : (content.take 5).length = 5 := by
    rw [List.length_take]
    omega
  show (if (content.take 5).length < 5 then (none, CFile.mk content 5)
    else if content.take 5 ≠ [45, 45, 45, 45, 45] then
      pgp_key_raw_extract_timestamp (CFile.mk content 5)
    else pgp_key_dearmor_extract_timestamp (CFile.mk content 5)) =
      pgp_key_dearmor_extract_timestamp (CFile.mk content 5)
  rw [if_neg (by omega), if_neg (by simpa using hd)]

lemma run_short_none (content : List Nat) (h5 : content.length < 5) :
    (pgp_key_extract_timestamp_run (CFile.mk content 0)).1 = none := by
  rw [pgp_key_extract_timestamp_run, freadBytes_zero]
  have hl : (content.take 5).length = content.length := by
    rw [List.length_take]
    omega
  show (if (content.take 5).length < 5 then
      (none, CFile.mk content (content.take 5).length)
    else if content.take 5 ≠ [45, 45, 45, 45, 45] then
      pgp_key_raw_extract_timestamp (CFile.mk content (content.take 5).length)
    else pgp_key_dearmor_extract_timestamp
      (CFile.mk content (content.take 5).length)).1 = none
  rw [if_pos (by omega)]

lemma classifier_map (content : List Nat) :
    pgp_key_extract_timestamp true content =
      Option.map be32 (pgp_key_extract_timestamp_run (CFile.mk content 0)).1 := by
  rw [pgp_key_extract_timestamp, if_pos rfl]
  cases hr : (pgp_key_extract_timestamp_run (CFile.mk content 0)).1 with
  | none => simp
  | some bs => simp

/-- C4.  On the raw path (first 5 bytes readable and different from `-----`),
the classifier dispatches to the raw extractor, which repositions to absolute
offset 3 and reads 4 bytes; on success the returned timestamp is the
big-endian value of the bytes at offsets 3 to 6, and extraction fails exactly
when fewer than 4 bytes remain at offset 3 (the `fseek` of the model always
succeeds on a regular file). -/
theorem raw_path_extraction (content : List Nat)
    (h5 : 5 ≤ content.length) (hnd : content.take 5 ≠ [45, 45, 45, 45, 45]) :
    pgp_key_extract_timestamp true content =
      Option.map be32 (pgp_key_raw_extract_timestamp (CFile.mk content 5)).1
    ∧ (7 ≤ content.length →
        pgp_key_extract_timestamp true content = some (be32 ((content.drop 3).take 4)))
    ∧ (pgp_key_extract_timestamp true content = none ↔ content.length < 7) := by
  have hbslen : ((content.drop 3).take 4).length = min 4 (content.length - 3) := by
    rw [List.length_take, List.length_drop]
  have hcls : pgp_key_extract_timestamp true content =
      Option.map be32 (pgp_key_raw_extract_timestamp (CFile.mk content 5)).1 := by
    rw [classifier_map, run_raw_eq content h5 hnd]
  refine ⟨hcls, ?_, ?_⟩
  · intro h7
    rw [hcls, raw_extract_fst, if_neg (by omega)]
    simp
  · rw [hcls, raw_extract_fst]
    by_cases h7 : 7 ≤ content.length
    · rw [if_neg (by omega)]
      simp
      omega
    · rw [if_pos (by omega)]
      simp
      omega

/-- Witness for C4: the 7-byte raw file `[1,2,3,4,5,6,7]` takes the raw path
and yields the big-endian value of bytes `[4,5,6,7]`. -/
theorem raw_path_extraction_witness :
    pgp_key_extract_timestamp true [1, 2, 3, 4, 5, 6, 7] =
      Option.map be32
        (pgp_key_raw_extract_timestamp (CFile.mk [1, 2, 3, 4, 5, 6, 7] 5)).1
    ∧ (7 ≤ ([1, 2, 3, 4, 5, 6, 7] : List Nat).length →
        pgp_key_extract_timestamp true [1, 2, 3, 4, 5, 6, 7] =
          some (be32 ((([1, 2, 3, 4, 5, 6, 7] : List Nat).drop 3).take 4)))
    ∧ (pgp_key_extract_timestamp true [1, 2, 3, 4, 5, 6, 7] = none ↔
        ([1, 2, 3, 4, 5, 6, 7] : List Nat).length < 7) :=
  raw_path_extraction [1, 2, 3, 4, 5, 6, 7] (by decide) (by decide)

/-- C5.  The format detector reads exactly 5 bytes from offset 0 (advancing
the cursor to 5), fails exactly when fewer than 5 bytes are available (and
then the classifier fails too), classifies the file as Armored exactly when
those bytes are `-----` and as Raw otherwise, and the classifier dispatches
to the corresponding extractor on the stream positioned at offset 5. -/
theorem format_detection (content : List Nat) :
    (detect_key_encoding content = none ↔ content.length < 5)
    ∧ (detect_key_encoding content = some KeyEncoding.Armored ↔
        5 ≤ content.length ∧ content.take 5 = [45, 45, 45, 45, 45])
    ∧ (detect_key_encoding content = some KeyEncoding.Raw ↔
        5 ≤ content.length ∧ content.take 5 ≠ [45, 45, 45, 45, 45])
    ∧ (freadBytes (CFile.mk content 0) 5).1 = content.take 5
    ∧ (5 ≤ content.length → (freadBytes (CFile.mk content 0) 5).2.pos = 5)
    ∧ (content.length < 5 → pgp_key_extract_timestamp true content = none)
    ∧ (detect_key_encoding content = some KeyEncoding.Armored →
        pgp_key_extract_timestamp_run (CFile.mk content 0) =
          pgp_key_dearmor_extract_timestamp (CFile.mk content 5))
    ∧ (detect_key_encoding content = some KeyEncoding.Raw →
        pgp_key_extract_timestamp_run (CFile.mk content 0) =
          pgp_key_raw_extract_timestamp (CFile.mk content 5)) := by
  have hdet : detect_key_encoding content =
      (if (content.take 5).length < 5 then none
       else if content.take 5 = [45, 45, 45, 45, 45] then some KeyEncoding.Armored
       else some KeyEncoding.Raw) := by
    rw [detect_key_encoding, freadBytes_zero]
  have hfr : (freadBytes (CFile.mk content 0) 5).1 = content.take 5 := by
    rw [freadBytes_zero]
  by_cases h5 : 5 ≤ content.length
  · have hl5 : (content.take 5).length = 5 := by
      rw [List.length_take]
      omega
    have hpos : (freadBytes (CFile.mk content 0) 5).2.pos = 5 := by
      rw [freadBytes_zero_of_le content 5 h5]
    by_cases hd : content.take 5 = [45, 45, 45, 45, 45]
    · rw [hdet, if_neg (by omega), if_pos hd]
      refine ⟨by simp; omega, by simp [h5, hd], by simp [hd], hfr,
        fun _ => hpos, fun h => absurd h (by omega), ?_, ?_⟩
      · intro _
        exact run_armored_eq content hd h5
      · intro hcon
        exact absurd hcon (by simp)
    · rw [hdet, if_neg (by omega), if_neg hd]
      refine ⟨by simp; omega, by simp [hd], by simp [h5, hd], hfr,
        fun _ => hpos, fun h => absurd h (by omega), ?_, ?_⟩
      · intro hcon
        exact absurd hcon (by simp)
      · intro _
        exact run_raw_eq content h5 hd
  · push_neg at h5
    have hl5 : (content.take 5).length = content.length := by
      rw [List.length_take]
      omega
    rw [hdet, if_pos (by omega)]
    refine ⟨by simp [h5], by simp; omega, by simp; omega, hfr, ?_, ?_, ?_, ?_⟩
    · intro hcon
      omega
    · intro _
      rw [classifier_map, run_short_none content h5]
      rfl
    · intro hcon
      exact absurd hcon (by simp)
    · intro hcon
      exact absurd hcon (by simp)

/-- Witness for C5: on the concrete armored file `-----B` the detector read
advances the cursor to 5, detection yields Armored, and the classifier
dispatches to the dearmor extractor positioned at offset 5. -/
theorem format_detection_witness :
    (freadBytes (CFile.mk [45, 45, 45, 45, 45, 66] 0) 5).2.pos = 5
    ∧ pgp_key_extract_timestamp_run (CFile.mk [45, 45, 45, 45, 45, 66] 0) =
        pgp_key_dearmor_extract_timestamp (CFile.mk [45, 45, 45, 45, 45, 66] 5) :=
  ⟨(format_detection [45, 45, 45, 45, 45, 66]).2.2.2.2.1 (by decide),
    (format_detection [45, 45, 45, 45, 45, 66]).2.2.2.2.2.2.1 (by decide)⟩

/-- C6.  In filter mode, for an eligible entry whose classification succeeds
with timestamp `ts`: the entry ends up in the destination exactly when
`ts ≥ t` and the rename succeeds; the base name and the bytes are preserved;
a timestamp equal to the threshold is moved (when the rename works); a
timestamp one second below the threshold is not moved; a failed rename
leaves the entry unchanged in place; and the scan goes on with the remaining
entries in every case. -/
theorem filter_move_decision (t ts : Nat) (e : FsEntry)
    (hskip : entrySkipped e = false)
    (hcl : pgp_key_extract_timestamp e.openOk e.content = some ts)
    (hloc : e.loc = Loc.src) :
    ((processEntry (some t) e).2.loc = Loc.dst ↔ t ≤ ts ∧ e.moveOk = true)
    ∧ (processEntry (some t) e).2.name = e.name
    ∧ (processEntry (some t) e).2.content = e.content
    ∧ (t ≤ ts → e.moveOk = true →
        processEntry (some t) e = (ScanOutcome.moved ts, setLocDst e))
    ∧ (ts + 1 = t → processEntry (some t) e = (ScanOutcome.notCompatible ts, e))
    ∧ (e.moveOk = false → (processEntry (some t) e).2 = e)
    ∧ (∀ es, scanDir (some t) (e :: es) = processEntry (some t) e :: scanDir (some t) es) := by
  have hpe : processEntry (some t) e =
      (if t ≤ ts then
        (if e.moveOk then (ScanOutcome.moved ts, setLocDst e)
         else (ScanOutcome.moveFailed ts, e))
       else (ScanOutcome.notCompatible ts, e)) := by
    rw [processEntry, if_neg (by simp [hskip]), hcl]
  by_cases hts : t ≤ ts
  · by_cases hmv : e.moveOk = true
    · have hp2 : processEntry (some t) e = (ScanOutcome.moved ts, setLocDst e) := by
        rw [hpe, if_pos hts, if_pos (by simp [hmv])]
      refine ⟨?_, ?_, ?_, fun _ _ => hp2, ?_, ?_, fun es => rfl⟩
      · rw [hp2]
        simp [setLocDst, hts, hmv]
      · rw [hp2]
        simp [setLocDst]
      · rw [hp2]
        simp [setLocDst]
      · intro h1
        omega
      · intro h0
        rw [hmv] at h0
        simp at h0
    · have hmv' : e.moveOk = false := by simpa using hmv
      have hp2 : processEntry (some t) e = (ScanOutcome.moveFailed ts, e) := by
        rw [hpe, if_pos hts, if_neg (by simp [hmv'])]
      refine ⟨?_, by rw [hp2], by rw [hp2], ?_, ?_, fun _ => by rw [hp2], fun es => rfl⟩
      · rw [hp2]
        simp [hloc, hmv']
      · intro _ hcontr
        rw [hmv'] at hcontr
        simp at hcontr
      · intro h1
        omega
  · have hp2 : processEntry (some t) e = (ScanOutcome.notCompatible ts, e) := by
      rw [hpe, if_neg hts]
    refine ⟨?_, by rw [hp2], by rw [hp2], ?_, fun _ => hp2, fun _ => by rw [hp2],
      fun es => rfl⟩
    · rw [hp2]
      simp [hloc, hts]
    · intro h1 _
      exact absurd h1 hts

/-- Witness for C6: a raw key file whose timestamp equals the threshold is
moved to the destination with name and bytes preserved. -/
theorem filter_move_decision_witness :
    ((processEntry (some 67438087)
        (FsEntry.mk [107] false true true [1, 2, 3, 4, 5, 6, 7] true Loc.src)).2.loc =
          Loc.dst ↔
      67438087 ≤ 67438087 ∧
        (FsEntry.mk [107] false true true [1, 2, 3, 4, 5, 6, 7] true Loc.src).moveOk = true)
    ∧ (processEntry (some 67438087)
        (FsEntry.mk [107] false true true [1, 2, 3, 4, 5, 6, 7] true Loc.src)).2.name =
        (FsEntry.mk [107] false true true [1, 2, 3, 4, 5, 6, 7] true Loc.src).name
    ∧ (processEntry (some 67438087)
        (FsEntry.mk [107] false true true [1, 2, 3, 4, 5, 6, 7] true Loc.src)).2.content =
        (FsEntry.mk [107] false true true [1, 2, 3, 4, 5, 6, 7] true Loc.src).content
    ∧ (67438087 ≤ 67438087 →
        (FsEntry.mk [107] false true true [1, 2, 3, 4, 5, 6, 7] true Loc.src).moveOk = true →
        processEntry (some 67438087)
          (FsEntry.mk [107] false true true [1, 2, 3, 4, 5, 6, 7] true Loc.src) =
        (ScanOutcome.moved 67438087,
          setLocDst (FsEntry.mk [107] false true true [1, 2, 3, 4, 5, 6, 7] true Loc.src)))
    ∧ (67438087 + 1 = 67438087 →
        processEntry (some 67438087)
          (FsEntry.mk [107] false true true [1, 2, 3, 4, 5, 6, 7] true Loc.src) =
        (ScanOutcome.notCompatible 67438087,
          FsEntry.mk [107] false true true [1, 2, 3, 4, 5, 6, 7] true Loc.src))
    ∧ ((FsEntry.mk [107] false true true [1, 2, 3, 4, 5, 6, 7] true Loc.src).moveOk = false →
        (processEntry (some 67438087)
          (FsEntry.mk [107] false true true [1, 2, 3, 4, 5, 6, 7] true Loc.src)).2 =
        FsEntry.mk [107] false true true [1, 2, 3, 4, 5, 6, 7] true Loc.src)
    ∧ (∀ es, scanDir (some 67438087)
        (FsEntry.mk [107] false true true [1, 2, 3, 4, 5, 6, 7] true Loc.src :: es) =
      processEntry (some 67438087)
          (FsEntry.mk [107] false true true [1, 2, 3, 4, 5, 6, 7] true Loc.src) ::
        scanDir (some 67438087) es) :=
  filter_move_decision 67438087 67438087
    (FsEntry.mk [107] false true true [1, 2, 3, 4, 5, 6, 7] true Loc.src)
    (by decide) (by decide) (by decide)

/-- C7.  Entries whose `stat` fails, directories, zero-length files, and
names starting with 46 (`.`) all yield the skipped outcome with the entry
untouched, so the classifier never sees them; a classifier failure yields
the classifyFailed outcome with the entry untouched; and the scan is a plain
map over the listing, so it covers every entry and no per-file failure ever
cuts it short. -/
theorem scanner_skip_and_continue (thr : Option Nat) (e : FsEntry)
    (es1 es2 : List FsEntry) :
    (e.statOk = false → processEntry thr e = (ScanOutcome.skipped, e))
    ∧ (e.isDir = true → processEntry thr e = (ScanOutcome.skipped, e))
    ∧ (e.content.length = 0 → processEntry thr e = (ScanOutcome.skipped, e))
    ∧ (e.name.head? = some 46 → processEntry thr e = (ScanOutcome.skipped, e))
    ∧ (entrySkipped e = false → pgp_key_extract_timestamp e.openOk e.content = none →
        processEntry thr e = (ScanOutcome.classifyFailed, e))
    ∧ scanDir thr (es1 ++ es2) = scanDir thr es1 ++ scanDir thr es2
    ∧ scanDir thr (e :: es2) = processEntry thr e :: scanDir thr es2
    ∧ (scanDir thr es1).length = es1.length := by
  have hskip : ∀ _ : entrySkipped e = true,
      processEntry thr e = (ScanOutcome.skipped, e) := by
    intro h
    rw [processEntry, if_pos h]
  refine ⟨?_, ?_, ?_, ?_, ?_, ?_, rfl, ?_⟩
  · intro h
    exact hskip (by simp [entrySkipped, h])
  · intro h
    exact hskip (by simp [entrySkipped, h])
  · intro h
    exact hskip (by simp [entrySkipped, h])
  · intro h
    exact hskip (by simp [entrySkipped, h])
  · intro h hnone
    rw [processEntry, if_neg (by simp [h]), hnone]
  · rw [scanDir, scanDir, scanDir, List.map_append]
  · rw [scanDir, List.length_map]

/-- Witness for C7: a stat-failed entry, a hidden entry, an empty file and a
truncated key exercise the four skip tests and the continue-on-failure
outcome at concrete entries. -/
theorem scanner_skip_and_continue_witness :
    processEntry none (FsEntry.mk [97] false false true [1] true Loc.src) =
      (ScanOutcome.skipped, FsEntry.mk [97] false false true [1] true Loc.src)
    ∧ processEntry none (FsEntry.mk [46, 97] false true true [1, 2, 3, 4, 5, 6, 7] true
        Loc.src) =
      (ScanOutcome.skipped,
        FsEntry.mk [46, 97] false true true [1, 2, 3, 4, 5, 6, 7] true Loc.src)
    ∧ processEntry none (FsEntry.mk [97] false true true [] true Loc.src) =
      (ScanOutcome.skipped, FsEntry.mk [97] false true true [] true Loc.src)
    ∧ processEntry none (FsEntry.mk [97] false true true [1, 2, 3] true Loc.src) =
      (ScanOutcome.classifyFailed, FsEntry.mk [97] false true true [1, 2, 3] true Loc.src) :=
  ⟨(scanner_skip_and_continue none (FsEntry.mk [97] false false true [1] true Loc.src)
      [] []).1 (by decide),
    (scanner_skip_and_continue none
      (FsEntry.mk [46, 97] false true true [1, 2, 3, 4, 5, 6, 7] true Loc.src) [] []).2.2.2.1
      (by decide),
    (scanner_skip_and_continue none (FsEntry.mk [97] false true true [] true Loc.src)
      [] []).2.2.1 (by decide),
    (scanner_skip_and_continue none (FsEntry.mk [97] false true true [1, 2, 3] true Loc.src)
      [] []).2.2.2.2.1 (by decide) (by decide)⟩

lemma run_content_preserved (content : List Nat) :
    (pgp_key_extract_timestamp_run (CFile.mk content 0)).2.content = content := by
  rw [pgp_key_extract_timestamp_run, freadBytes_zero]
  show (if (content.take 5).length < 5 then
      (none, CFile.mk content (content.take 5).length)
    else if content.take 5 ≠ [45, 45, 45, 45, 45] then
      pgp_key_raw_extract_timestamp (CFile.mk content (content.take 5).length)
    else pgp_key_dearmor_extract_timestamp
      (CFile.mk content (content.take 5).length)).2.content = content
  by_cases h1 : (content.take 5).length < 5
  · rw [if_pos h1]
  · rw [if_neg h1]
    by_cases h2 : content.take 5 ≠ [45, 45, 45, 45, 45]
    · rw [if_pos h2, pgp_key_raw_extract_timestamp]
      split
      next bs f2 heq =>
        have hf2 : f2.content = content := by
          have hcg := congrArg (fun q : List Nat × CFile => q.2.content) heq
          simpa [freadBytes, fseekSet] using hcg.symm
        split
        · exact hf2
        · exact hf2
    · rw [if_neg h2, pgp_key_dearmor_extract_timestamp]
      exact dearmorLoopF_content _ _

lemma processEntry_none_snd (e : FsEntry) : (processEntry none e).2 = e := by
  rw [processEntry]
  by_cases h : entrySkipped e = true
  · rw [if_pos h]
  · rw [if_neg h]
    cases hc : pgp_key_extract_timestamp e.openOk e.content <;> rfl

lemma processEntry_some_eq (t ts : Nat) (e : FsEntry) (h : entrySkipped e = false)
    (hc : pgp_key_extract_timestamp e.openOk e.content = some ts) :
    processEntry (some t) e =
      (if t ≤ ts then
        (if e.moveOk then (ScanOutcome.moved ts, setLocDst e)
         else (ScanOutcome.moveFailed ts, e))
       else (ScanOutcome.notCompatible ts, e)) := by
  rw [processEntry, if_neg (by simp [h]), hc]

lemma processEntry_snd_cases (thr : Option Nat) (e : FsEntry) :
    (processEntry thr e).2 = e ∨ (processEntry thr e).2 = setLocDst e := by
  by_cases h : entrySkipped e = true
  · left
    rw [processEntry, if_pos h]
  · have h' : entrySkipped e = false := by simpa using h
    cases hc : pgp_key_extract_timestamp e.openOk e.content with
    | none =>
      left
      rw [processEntry, if_neg (by simp [h']), hc]
    | some ts =>
      cases thr with
      | none =>
        left
        rw [processEntry, if_neg (by simp [h']), hc]
      | some t =>
        rw [processEntry_some_eq t ts e h' hc]
        by_cases hts : t ≤ ts
        · by_cases hmv : e.moveOk = true
          · right
            rw [if_pos hts, if_pos (by simp [hmv])]
          · left
            rw [if_pos hts, if_neg (by simpa using hmv)]
        · left
          rw [if_neg hts]

lemma processEntry_content_preserved (thr : Option Nat) (e : FsEntry) :
    (processEntry thr e).2.content = e.content := by
  rcases processEntry_snd_cases thr e with h | h
  · rw [h]
  · rw [h]
    rfl

/-- C8.  Timestamp extraction never changes the bytes of the file it reads
and is idempotent; the report-only scan returns every entry completely
unchanged; and in filter mode the scan changes at most an entry's location
(the rename), never its name or bytes. -/
theorem extraction_and_scan_no_mutation (content : List Nat) (thr : Option Nat)
    (entries : List FsEntry) :
    (pgp_key_extract_timestamp_run (CFile.mk content 0)).2.content = content
    ∧ pgp_key_extract_timestamp_run
        (CFile.mk (pgp_key_extract_timestamp_run (CFile.mk content 0)).2.content 0) =
      pgp_key_extract_timestamp_run (CFile.mk content 0)
    ∧ (scanDir none entries).map Prod.snd = entries
    ∧ (scanDir thr entries).map (fun pe => pe.2.content) = entries.map FsEntry.content
    ∧ (scanDir thr entries).map (fun pe => pe.2.name) = entries.map FsEntry.name
    ∧ ∀ pe ∈ scanDir thr entries, pe.2 ∈ entries ∨ ∃ e ∈ entries, pe.2 = setLocDst e := by
  refine ⟨run_content_preserved content, ?_, ?_, ?_, ?_, ?_⟩
  · rw [run_content_preserved content]
  · rw [scanDir, List.map_map]
    have hcomp : (Prod.snd ∘ processEntry none) = id := funext processEntry_none_snd
    rw [hcomp, List.map_id]
  · rw [scanDir, List.map_map]
    apply List.map_congr_left
    intro e _
    exact processEntry_content_preserved thr e
  · rw [scanDir, List.map_map]
    apply List.map_congr_left
    intro e _
    have hn : ∀ x : FsEntry, (setLocDst x).name = x.name := fun x => rfl
    rcases processEntry_snd_cases thr e with h | h <;> simp [Function.comp, h, hn]
  · intro pe hpe
    rw [scanDir] at hpe
    obtain ⟨e, he, hpe2⟩ := List.mem_map.mp hpe
    rcases processEntry_snd_cases thr e with h | h
    · left
      rw [← hpe2, h]
      exact he
    · right
      exact ⟨e, he, by rw [← hpe2, h]⟩

/-- Witness for C8: the armored sample file is read without being changed,
and a one-entry filter scan preserves bytes and name while moving the file. -/
theorem extraction_and_scan_no_mutation_witness :
    (pgp_key_extract_timestamp_run
        (CFile.mk ([45, 45, 45, 45, 45, 10] ++ List.replicate 64 65 ++ [10]) 0)).2.content =
      [45, 45, 45, 45, 45, 10] ++ List.replicate 64 65 ++ [10]
    ∧ (scanDir (some 0)
        [FsEntry.mk [107] false true true [1, 2, 3, 4, 5, 6, 7] true Loc.src]).map
          (fun pe => pe.2.content) =
      [FsEntry.mk [107] false true true [1, 2, 3, 4, 5, 6, 7] true Loc.src].map
        FsEntry.content :=
  ⟨(extraction_and_scan_no_mutation
      ([45, 45, 45, 45, 45, 10] ++ List.replicate 64 65 ++ [10]) none []).1,
    (extraction_and_scan_no_mutation [] (some 0)
      [FsEntry.mk [107] false true true [1, 2, 3, 4, 5, 6, 7] true Loc.src]).2.2.2.1⟩

/-- Counterexample for C9 as stated: with a valid argument count of 2 and no
filter mode, the run still exits with code 1 when `opendir` fails, so exit
code 1 does not occur exactly on usage errors and primary-key failures. -/
theorem exit_code_claim_counterexample :
    (mainRun 2 true [] true false true []).1 = 1
    ∧ ¬((2 ≠ 2 ∧ 2 ≠ 4) ∨ (2 = 4 ∧ pgp_key_extract_timestamp true [] = none)) := by
  decide

/-- C9 (amended).  The run exits with code 1 exactly when the argument count
is neither 2 nor 4, or in filter mode the primary-key extraction fails or
the destination path allocation fails, or the directory cannot be opened, or
the file path allocation fails; otherwise the scan runs over every entry and
exits with code 0 regardless of per-file failures. -/
theorem exit_code_amended (argc : Nat) (pOk : Bool) (p : List Nat)
    (dOk oOk mOk : Bool) (es : List FsEntry) :
    ((mainRun argc pOk p dOk oOk mOk es).1 = 1 ↔
      (argc ≠ 2 ∧ argc ≠ 4) ∨ (argc = 4 ∧ pgp_key_extract_timestamp pOk p = none)
      ∨ (argc = 4 ∧ dOk = false) ∨ oOk = false ∨ mOk = false)
    ∧ ((argc = 2 ∨ (argc = 4 ∧ pgp_key_extract_timestamp pOk p ≠ none ∧ dOk = true)) →
        oOk = true → mOk = true →
        (mainRun argc pOk p dOk oOk mOk es).1 = 0
        ∧ (mainRun argc pOk p dOk oOk mOk es).2 =
            scanDir (if argc = 4 then pgp_key_extract_timestamp pOk p else none) es) := by
  constructor
  · rw [mainRun]
    split_ifs with h1 h2 h3 h4 h5
    · simpa using Or.inl h1
    · simpa using Or.inr (Or.inl h2)
    · simpa using Or.inr (Or.inr (Or.inl h3))
    · simpa using Or.inr (Or.inr (Or.inr (Or.inl h4)))
    · simpa using Or.inr (Or.inr (Or.inr (Or.inr h5)))
    · have hno : ¬((argc ≠ 2 ∧ argc ≠ 4)
          ∨ (argc = 4 ∧ pgp_key_extract_timestamp pOk p = none)
          ∨ (argc = 4 ∧ dOk = false) ∨ oOk = false ∨ mOk = false) := by
        tauto
      simp [hno]
  · intro hgood hoOk hmOk
    rcases hgood with h2' | ⟨h4', hne, hd'⟩
    · subst h2'
      rw [mainRun]
      rw [if_neg (by simp), if_neg (by simp), if_neg (by simp),
        if_neg (by simp [hoOk]), if_neg (by simp [hmOk])]
      exact ⟨rfl, rfl⟩
    · subst h4'
      rw [mainRun]
      rw [if_neg (by simp), if_neg (by simp [hne]), if_neg (by simp [hd']),
        if_neg (by simp [hoOk]), if_neg (by simp [hmOk])]
      exact ⟨rfl, rfl⟩

/-- Witness for C9 (amended): a report-mode run over one entry completes the
scan and exits with code 0. -/
theorem exit_code_amended_witness :
    (mainRun 2 true [] true true true
        [FsEntry.mk [107] false true true [1, 2, 3, 4, 5, 6, 7] true Loc.src]).1 = 0
    ∧ (mainRun 2 true [] true true true
        [FsEntry.mk [107] false true true [1, 2, 3, 4, 5, 6, 7] true Loc.src]).2 =
      scanDir (if 2 = 4 then pgp_key_extract_timestamp true [] else none)
        [FsEntry.mk [107] false true true [1, 2, 3, 4, 5, 6, 7] true Loc.src] :=
  (exit_code_amended 2 true [] true true true
      [FsEntry.mk [107] false true true [1, 2, 3, 4, 5, 6, 7] true Loc.src]).2
    (Or.inl rfl) rfl rfl

/-- C10.  Whenever a line read by `fgets` into the 67-byte buffer qualifies,
it holds at least 65 and at most 66 bytes, so the pad writes at buffer
indices 10, 11 and 12 (offsets 4+6, 4+7 and 4+8 of the selected slice) and
the 8-byte decode read starting at index 4 stay strictly inside both the
67-byte buffer and the bytes `fgets` actually wrote into it. -/
theorem dearmor_inbuffer_bounds (f : CFile) (line : List Nat) (f2 : CFile)
    (hg : fgetsC f = some (line, f2)) (hq : lineQualifies line = true) :
    65 ≤ line.length ∧ line.length ≤ 66 ∧ line.length + 1 ≤ 67
    ∧ 12 < line.length + 1 ∧ 12 < 67 ∧ 4 + 8 ≤ line.length := by
  have h66 := (fgetsC_some_facts f line f2 hg).2.2.2.2.1
  have h65 : cstrLen line = 65 := ((lineQualifies_true_iff line).mp hq).2.2
  have hle := cstrLen_le_length line
  refine ⟨by omega, h66, by omega, by omega, by omega, by omega⟩

set_option maxRecDepth 8000 in
/-- Witness for C10: the concrete 65-byte qualifying line read from a
one-line stream. -/
theorem dearmor_inbuffer_bounds_witness :
    65 ≤ (List.replicate 64 67 ++ [10]).length
    ∧ (List.replicate 64 67 ++ [10]).length ≤ 66
    ∧ (List.replicate 64 67 ++ [10]).length + 1 ≤ 67
    ∧ 12 < (List.replicate 64 67 ++ [10]).length + 1
    ∧ 12 < 67
    ∧ 4 + 8 ≤ (List.replicate 64 67 ++ [10]).length :=
  dearmor_inbuffer_bounds (CFile.mk (List.replicate 64 67 ++ [10]) 0)
    (List.replicate 64 67 ++ [10])
    (CFile.mk (List.replicate 64 67 ++ [10]) 65)
    (by decide) (by decide)
